import Mathlib

/-!
Verification development for the TradingView-Screener-ts query-builder core
(`src/types.ts`, model interfaces in `src/types/models.ts`).

The TypeScript source is shallowly embedded: plain data interfaces become Lean
structures/inductives, the mutable fluent `Query` builder becomes explicit state
passing (each method takes and returns a `Query` value), dynamic `any` values are
modelled by a `Json` tree, and the external HTTP transport is a parameter.
A second, heap-based model with explicit reference cells is developed further
below to reason about JavaScript aliasing for the deep-copy property of
`Query.copy()` (`JSON.parse(JSON.stringify(...))`).
-/

namespace TVS

/-- Model of a JSON/JavaScript data value (dynamic `any` in the source).
Numbers are modelled as integers: none of the verified operations computes
on numeric values, they are only carried around and serialized. -/
inductive Json where
  | null
  | bool (b : Bool)
  | num (n : Int)
  | str (s : String)
  | arr (elems : List Json)
  | obj (fields : List (String × Json))
deriving Repr

mutual
/-- Model of `JSON.stringify` on a `Json` value (string escaping of special
characters inside string literals is not modelled; the verified properties
only use the serialized text as an opaque substring). -/
def jsonStringify : Json → String
  | .null => "null"
  | .bool true => "true"
  | .bool false => "false"
  | .num n => toString n
  | .str s => "\"" ++ s ++ "\""
  | .arr xs => "[" ++ jsonStringifyList xs ++ "]"
  | .obj fs => "\x7b" ++ jsonStringifyFields fs ++ "\x7d"

/-- Comma-separated serialization of array elements. -/
def jsonStringifyList : List Json → String
  | [] => ""
  | [j] => jsonStringify j
  | j :: js => jsonStringify j ++ "," ++ jsonStringifyList js

/-- Comma-separated serialization of object fields. -/
def jsonStringifyFields : List (String × Json) → String
  | [] => ""
  | [(k, j)] => "\"" ++ k ++ "\":" ++ jsonStringify j
  | (k, j) :: fs => "\"" ++ k ++ "\":" ++ jsonStringify j ++ "," ++ jsonStringifyFields fs
end

/-- `FilterOperation` in `models.ts` is a closed union of operation-name string
literals (`'greater'`, `'in_range'`, ...); the verified properties treat the
operation name opaquely, so it is modelled as a string. -/
abbrev FilterOperation := String

/-- `FilterOperationDict` from `models.ts`: a leaf filter expression
`\x7b left, operation, right? \x7d`. -/
structure FilterOperationDict where
  left : String
  operation : FilterOperation
  right : Option Json := none
deriving Repr

/-- `ExpressionDict` from `models.ts`: the `\x7b expression: leaf \x7d` wrapper. -/
structure ExpressionDict where
  expression : FilterOperationDict
deriving Repr

/-- `LogicalOperator` from `models.ts`. -/
inductive LogicalOperator where
  | and
  | or
deriving Repr, DecidableEq

mutual
/-- `OperationComparisonDict` from `models.ts`: `\x7b operator, operands \x7d`. -/
inductive OperationComparisonDict where
  | mk (operator : LogicalOperator) (operands : List Operand)

/-- An element of an `operands` array: either an `OperationDict` (nested
composite, tagged by its `operation` key) or an `ExpressionDict` (wrapped
leaf, tagged by its `expression` key). -/
inductive Operand where
  | operationD (o : OperationDict)
  | expressionD (e : ExpressionDict)

/-- `OperationDict` from `models.ts`: the `\x7b operation: ... \x7d` wrapper. -/
inductive OperationDict where
  | mk (operation : OperationComparisonDict)
end

/-- Accessor for the `operator` field of an `OperationComparisonDict`. -/
def OperationComparisonDict.operator : OperationComparisonDict → LogicalOperator
  | .mk op _ => op

/-- Accessor for the `operands` field of an `OperationComparisonDict`. -/
def OperationComparisonDict.operands : OperationComparisonDict → List Operand
  | .mk _ ops => ops

/-- Accessor for the `operation` field of an `OperationDict`. -/
def OperationDict.operation : OperationDict → OperationComparisonDict
  | .mk o => o

/-- The argument type of `And`/`Or` in the source:
`Array<FilterOperationDict | OperationDict>`. A `FilterOperationDict` is
recognized in the source by the presence of its `left` key, which the sum
tag models. -/
inductive FilterOrOperation where
  | filter (f : FilterOperationDict)
  | operation (o : OperationDict)

/-- `implAndOrChaining` from `types.ts`: wraps each leaf
(`FilterOperationDict`, detected via its `left` key) as
`\x7b expression: expr \x7d` and keeps composites as-is, then builds
`\x7b operation: \x7b operator, operands \x7d \x7d`. -/
def implAndOrChaining (expressions : List FilterOrOperation)
    (operator : LogicalOperator) : OperationDict :=
  let operands : List Operand := expressions.map fun expr =>
    match expr with
    | .filter f => Operand.expressionD ⟨f⟩
    | .operation o => Operand.operationD o
  OperationDict.mk (OperationComparisonDict.mk operator operands)

/-- `And` from `types.ts`. -/
def And (expressions : List FilterOrOperation) : OperationDict :=
  implAndOrChaining expressions .and

/-- `Or` from `types.ts`. -/
def Or (expressions : List FilterOrOperation) : OperationDict :=
  implAndOrChaining expressions .or

/-- `SortOrder` from `models.ts`. -/
inductive SortOrder where
  | asc
  | desc
deriving Repr, DecidableEq

/-- `SortByDict` from `models.ts`. -/
structure SortByDict where
  sortBy : String
  sortOrder : SortOrder
  nullsFirst : Option Bool := none
deriving Repr

/-- The `query` sub-object of `SymbolsDict` from `models.ts`. -/
structure SymbolsQueryDict where
  types : List String
deriving Repr

/-- `SymbolsDict` from `models.ts` (the fields the builder touches). -/
structure SymbolsDict where
  query : Option SymbolsQueryDict := none
  tickers : Option (List String) := none
  symbolset : Option (List String) := none
deriving Repr

/-- `QueryDict` from `models.ts`: the request document owned by the builder.
`options` (`Record<string, any>`) is modelled as a key/value list; `range`
(`[number, number]`) as a pair of integers. -/
structure QueryDict where
  markets : Option (List String) := none
  symbols : Option SymbolsDict := none
  options : Option (List (String × Json)) := none
  columns : Option (List String) := none
  filter : Option (List FilterOperationDict) := none
  filter2 : Option OperationComparisonDict := none
  sort : Option SortByDict := none
  range : Option (Int × Int) := none
  preset : Option String := none

/-- `DEFAULT_RANGE` from `types.ts`. -/
def DEFAULT_RANGE : Int × Int := (0, 50)

/-- `URL` from `types.ts`: the scanner endpoint template. -/
def URL : String := "https://scanner.tradingview.com/\x7bmarket\x7d/scan"

/-- Whether `pat` occurs at the start of the second character list. -/
def matchesAt : List Char → List Char → Bool
  | [], _ => true
  | _ :: _, [] => false
  | a :: as, b :: bs => a == b && matchesAt as bs

/-- Splits a character list around the first occurrence of `pat`,
returning the characters before and after it (or `none` when `pat` does
not occur). -/
def splitFirst (pat : List Char) : List Char → Option (List Char × List Char)
  | [] => none
  | c :: cs =>
    if matchesAt pat (c :: cs) then some ([], (c :: cs).drop pat.length)
    else
      match splitFirst pat cs with
      | none => none
      | some (pre, post) => some (c :: pre, post)

/-- JavaScript `String.prototype.replace` with a plain string pattern:
replaces the first occurrence of `pat` in `s` by `repl` (the `$`-pattern
semantics of JavaScript replacement strings is not modelled; the market
identifiers substituted in the source never contain `$`). -/
def jsReplace (s pat repl : String) : String :=
  match splitFirst pat.data s.data with
  | none => s
  | some (pre, post) => String.mk (pre ++ repl.data ++ post)

/-- `Column` from `column.ts` (only its `name` field is relevant to the
builder: every comparison method resolves to plain data, and the builder
itself only ever reads `col.name`). -/
structure Column where
  name : String
deriving Repr

/-- The argument type `Column | string` used by `select` and `orderBy`. -/
inductive ColumnOrString where
  | column (c : Column)
  | str (s : String)

/-- The resolution `col instanceof Column ? col.name : col` used by
`select` and `orderBy` in `types.ts`. -/
def ColumnOrString.resolve : ColumnOrString → String
  | .column c => c.name
  | .str s => s

/-- The `Query` class state from `types.ts`: the private `query` document
and the private `url`. -/
structure Query where
  query : QueryDict
  url : String

/-- The `Query` constructor from `types.ts`. -/
def Query.new : Query where
  query :=
    { markets := some ["america"]
      symbols := some { query := some ⟨[]⟩, tickers := some [] }
      options := some [("lang", Json.str "en")]
      columns := some ["name", "close", "volume", "market_cap_basic"]
      sort := some { sortBy := "Value.Traded", sortOrder := .desc }
      range := some DEFAULT_RANGE }
  url := "https://scanner.tradingview.com/america/scan"

/-- `Query.select` from `types.ts`: replaces `columns` wholesale with the
resolved column names. -/
def Query.select (q : Query) (columns : List ColumnOrString) : Query :=
  { q with query := { q.query with columns := some (columns.map (·.resolve)) } }

/-- `Query.where` from `types.ts` (named `where1` here because `where` is a
Lean keyword): replaces `filter` wholesale with the given expressions. -/
def Query.where1 (q : Query) (expressions : List FilterOperationDict) : Query :=
  { q with query := { q.query with filter := some expressions } }

/-- `Query.where2` from `types.ts`: stores the composite's inner
`operation` structure (connector + operands) directly in `filter2`,
unwrapping the `\x7b operation: ... \x7d` wrapper. -/
def Query.where2 (q : Query) (operation : OperationDict) : Query :=
  { q with query := { q.query with filter2 := some operation.operation } }

/-- `Query.orderBy` from `types.ts`, with the source's default arguments
`ascending = true` and `nullsFirst = false`: replaces `sort` wholesale. -/
def Query.orderBy (q : Query) (column : ColumnOrString)
    (ascending : Bool := true) (nullsFirst : Bool := false) : Query :=
  let sortDict : SortByDict :=
    { sortBy := column.resolve
      sortOrder := if ascending then .asc else .desc
      nullsFirst := some nullsFirst }
  { q with query := { q.query with sort := some sortDict } }

/-- `Query.limit` from `types.ts`: initializes `range` to a copy of
`DEFAULT_RANGE` when unset, then overwrites its second component. -/
def Query.limit (q : Query) (lim : Int) : Query :=
  let range := q.query.range.getD DEFAULT_RANGE
  { q with query := { q.query with range := some (range.1, lim) } }

/-- `Query.offset` from `types.ts`: initializes `range` to a copy of
`DEFAULT_RANGE` when unset, and overwrites its first component. -/
def Query.offset (q : Query) (off : Int) : Query :=
  let range := q.query.range.getD DEFAULT_RANGE
  { q with query := { q.query with range := some (off, range.2) } }

/-- `Query.setMarkets` from `types.ts`: with exactly one market, the URL
becomes the market-specific endpoint and `markets` the one-element list;
otherwise the URL becomes the `global` endpoint and `markets` the literal
argument list. -/
def Query.setMarkets (q : Query) (markets : List String) : Query :=
  match markets with
  | [market] =>
    { q with
      url := jsReplace URL "\x7bmarket\x7d" market
      query := { q.query with markets := some [market] } }
  | _ =>
    { q with
      url := jsReplace URL "\x7bmarket\x7d" "global"
      query := { q.query with markets := some markets } }

/-- `Query.setTickers` from `types.ts`: ensures `symbols` exists, replaces
its `tickers` list, then calls `setMarkets()` with no arguments. -/
def Query.setTickers (q : Query) (tickers : List String) : Query :=
  let symbols := q.query.symbols.getD {}
  let q1 : Query :=
    { q with query := { q.query with symbols := some { symbols with tickers := some tickers } } }
  q1.setMarkets []

/-- `Query.setIndex` from `types.ts`: sets the
`index_components_market_pages` preset, ensures `symbols` exists, replaces
its `symbolset` list, then calls `setMarkets()` with no arguments. -/
def Query.setIndex (q : Query) (indexes : List String) : Query :=
  let q0 : Query := { q with query := { q.query with preset := some "index_components_market_pages" } }
  let symbols := q0.query.symbols.getD {}
  let q1 : Query :=
    { q0 with query := { q0.query with symbols := some { symbols with symbolset := some indexes } } }
  q1.setMarkets []

/-- `ScreenerRowDict` from `models.ts`: one raw response row
`\x7b s, d \x7d`. -/
structure ScreenerRowDict where
  s : String
  d : List Json
deriving Repr

/-- The raw response envelope (`ScreenerDict` in `models.ts`). The wire
`data` array may be absent for zero-match queries (the source guards with
`if (!data)`), so it is modelled as optional. -/
structure ScreenerDict where
  totalCount : Int
  data : Option (List ScreenerRowDict) := none
deriving Repr

/-- The `response` object attached to a failed transport request:
`status`, `statusText` and the parsed body `data`, as read by the catch
block of `getScannerDataRaw`. -/
structure ErrorResponse where
  status : Int
  statusText : String
  data : Json
deriving Repr

/-- A JavaScript thrown value as discriminated by the catch block of
`getScannerDataRaw`: an `Error` carrying a truthy object `response`
property, an `Error` without one, or a thrown non-`Error` value. -/
inductive ThrownValue where
  | errorWithResponse (message : String) (response : ErrorResponse)
  | errorPlain (message : String)
  | nonError (value : Json)
deriving Repr

/-- Whether the thrown value is an `Error` instance with an attached
response object (the condition tested by the catch block). -/
def ThrownValue.hasResponse : ThrownValue → Bool
  | .errorWithResponse _ _ => true
  | _ => false

/-- The catch block of `Query.getScannerDataRaw`: an error with an attached
response is rewrapped as
`new Error('HTTP $\x7bstatus\x7d: $\x7bstatusText\x7d\nBody: ' + JSON.stringify(data))`;
any other thrown value is re-thrown as-is. -/
def handleRequestError : ThrownValue → ThrownValue
  | .errorWithResponse _ r =>
    .errorPlain ("HTTP " ++ toString r.status ++ ": " ++ r.statusText
      ++ "\nBody: " ++ jsonStringify r.data)
  | e => e

/-- The external HTTP transport collaborator (`axios.post` in the source):
given the request URL and the posted query document, it either returns the
parsed response body (2xx) or throws. Modelled from the spec: the transport
is an excluded collaborator whose only obligation is
`post(url, body) -> response | throws`. -/
def Transport := String → QueryDict → Except ThrownValue ScreenerDict

/-- The document actually posted by `getScannerDataRaw`: the builder's
document with `range` defaulted to `DEFAULT_RANGE` when unset (the method
performs this defaulting before the request). -/
def Query.postedDoc (q : Query) : QueryDict :=
  { q.query with range := some (q.query.range.getD DEFAULT_RANGE) }

/-- `Query.getScannerDataRaw` from `types.ts`: defaults `range`, posts the
document once to the current URL, returns the raw body on success, and on
failure applies the catch block (`handleRequestError`). Request headers,
cookies and timeout only configure the transport and are absorbed into the
`Transport` parameter. -/
def Query.getScannerDataRaw (q : Query) (t : Transport) : Except ThrownValue ScreenerDict :=
  match t q.url q.postedDoc with
  | .ok body => .ok body
  | .error e => .error (handleRequestError e)

/-- One field of a rehydrated result record: the value is `none` when the
JavaScript assignment stored `undefined` (positional index out of range). -/
abbrev ResultRecord := List (String × Option Json)

/-- JavaScript object property assignment `rec[k] = v`: overwrites the
value in place if the key exists, otherwise appends the key (insertion
order is preserved, as for JS string keys). -/
def setKey (rec : ResultRecord) (k : String) (v : Option Json) : ResultRecord :=
  if rec.any (fun p => p.1 == k) then
    rec.map (fun p => if p.1 == k then (k, v) else p)
  else
    rec ++ [(k, v)]

/-- The row-remapping loop of `Query.getScannerData`: starts the record at
`\x7b ticker: row.s \x7d` and assigns `result[column] = row.d[index]` for each
selected column. -/
def mapRow (columns : List String) (row : ScreenerRowDict) : ResultRecord :=
  columns.enum.foldl (fun acc p => setKey acc p.2 (row.d[p.1]?))
    [("ticker", some (Json.str row.s))]

/-- `ScreenerDataResult` from `models.ts`: `totalCount` plus the
rehydrated records. -/
structure ScreenerDataResult where
  totalCount : Int
  data : List ResultRecord

/-- `Query.getScannerData` from `types.ts`: performs the raw request, treats
an absent `data` array as a valid empty result, and otherwise remaps each
row's positional value array onto the current `columns` list (defaulted to
`[]` when unset) plus the injected `ticker` field. -/
def Query.getScannerData (q : Query) (t : Transport) : Except ThrownValue ScreenerDataResult :=
  match q.getScannerDataRaw t with
  | .error e => .error e
  | .ok jsonObj =>
    match jsonObj.data with
    | none => .ok { totalCount := jsonObj.totalCount, data := [] }
    | some data =>
      let columns := q.query.columns.getD []
      .ok { totalCount := jsonObj.totalCount, data := data.map (mapRow columns) }

/-!  Theorems about the pure builder model.  -/

/-- Substituting any market name into the URL template produces the
market-specific endpoint string. -/
theorem jsReplace_url (m : String) :
    jsReplace URL "\x7bmarket\x7d" m = "https://scanner.tradingview.com/" ++ m ++ "/scan" := by
  have h : splitFirst "\x7bmarket\x7d".data URL.data
      = some ("https://scanner.tradingview.com/".data, "/scan".data) := by decide
  unfold jsReplace
  rw [h]
  obtain ⟨d⟩ := m
  rfl

/-- C1: `setMarkets` with exactly one market `m` sets the URL to the
market-specific endpoint `https://scanner.tradingview.com/<m>/scan` and the
document's `markets` list to `[m]`; with zero or two-or-more markets it
sets the URL to the aggregate endpoint
`https://scanner.tradingview.com/global/scan` and `markets` to the literal
argument list. -/
theorem setMarkets_scoping (q : Query) (m : String) (markets : List String) :
    ((q.setMarkets [m]).url = "https://scanner.tradingview.com/" ++ m ++ "/scan"
      ∧ (q.setMarkets [m]).query.markets = some [m])
    ∧ (markets.length ≠ 1 →
        (q.setMarkets markets).url = "https://scanner.tradingview.com/global/scan"
        ∧ (q.setMarkets markets).query.markets = some markets) := by
  have hglobal : jsReplace URL "\x7bmarket\x7d" "global"
      = "https://scanner.tradingview.com/global/scan" := by
    rw [jsReplace_url]
    rfl
  refine ⟨⟨?_, rfl⟩, fun hne => ?_⟩
  · show jsReplace URL "\x7bmarket\x7d" m = _
    exact jsReplace_url m
  · match markets, hne with
    | [], _ => exact ⟨hglobal, rfl⟩
    | _ :: _ :: _, _ => exact ⟨hglobal, rfl⟩
    | [x], hne => exact absurd rfl hne

/-- C1 witness: the theorem applied at a concrete builder and market
lists, discharging the length hypothesis at `["america", "israel"]`. -/
theorem setMarkets_scoping_witness :
    ((Query.new.setMarkets ["crypto"]).url = "https://scanner.tradingview.com/" ++ "crypto" ++ "/scan"
      ∧ (Query.new.setMarkets ["crypto"]).query.markets = some ["crypto"])
    ∧ ((Query.new.setMarkets ["america", "israel"]).url = "https://scanner.tradingview.com/global/scan"
      ∧ (Query.new.setMarkets ["america", "israel"]).query.markets = some ["america", "israel"]) := by
  have h := setMarkets_scoping Query.new "crypto" ["america", "israel"]
  exact ⟨h.1, h.2 (by decide)⟩

/-- C2: `Or(And(a, b), c)` serializes with the correct nesting — the outer
node carries the `or` operator over `[\x7b operation: innerAnd \x7d,
\x7b expression: c \x7d]`, where `innerAnd` carries the `and` operator over
`[\x7b expression: a \x7d, \x7b expression: b \x7d]` — and `where2` stores a
composite's inner connector+operands structure directly in `filter2`,
without the outer wrapper. -/
theorem orAnd_nesting_where2 (a b c : FilterOperationDict) (q : Query) (op : OperationDict) :
    Or [.operation (And [.filter a, .filter b]), .filter c]
      = OperationDict.mk (OperationComparisonDict.mk .or
          [Operand.operationD (OperationDict.mk (OperationComparisonDict.mk .and
              [Operand.expressionD ⟨a⟩, Operand.expressionD ⟨b⟩])),
           Operand.expressionD ⟨c⟩])
    ∧ (q.where2 op).query.filter2 = some op.operation :=
  ⟨rfl, rfl⟩

/-- C3 counterexample: calling `And` with zero expressions does not fail
fast — it silently returns a composite node whose operand list is empty. -/
theorem and_empty_produces_empty_operands : (And []).operation.operands = [] := rfl

/-- C3 amended: `And`/`Or` applied to zero expressions perform no
validation and return the composite node with the respective operator and
an empty operand list. -/
theorem andOr_empty_amended :
    And [] = OperationDict.mk (OperationComparisonDict.mk .and [])
    ∧ Or [] = OperationDict.mk (OperationComparisonDict.mk .or []) :=
  ⟨rfl, rfl⟩

/-- C8: `limit(n)` and `offset(m)` commute and jointly set
`range = [m, n]`; `limit` rewrites only the second range component and
`offset` only the first, each reading the default `[0, 50]` when `range`
is unset and leaving every other document field and the URL unchanged. -/
theorem limit_offset_commute (q : Query) (n m : Int) :
    ((q.limit n).offset m = (q.offset m).limit n)
    ∧ (((q.limit n).offset m).query.range = some (m, n))
    ∧ (q.limit n
        = { q with query := { q.query with
              range := some ((q.query.range.getD DEFAULT_RANGE).1, n) } })
    ∧ (q.offset m
        = { q with query := { q.query with
              range := some (m, (q.query.range.getD DEFAULT_RANGE).2) } }) :=
  ⟨rfl, rfl, rfl, rfl⟩

/-- C9: `select`, `where` and `orderBy` replace their document field
wholesale, so the second of two calls wins; and `orderBy`'s omitted
optional arguments default to `ascending = true`, `nullsFirst = false`,
producing an `asc` sort with `nullsFirst: false`. -/
theorem replacing_last_call_wins (q : Query) (a b : List ColumnOrString)
    (e1 e2 : List FilterOperationDict) (c1 c2 : ColumnOrString)
    (asc1 asc2 nf1 nf2 : Bool) :
    ((q.select a).select b = q.select b)
    ∧ ((q.where1 e1).where1 e2 = q.where1 e2)
    ∧ ((q.orderBy c1 asc1 nf1).orderBy c2 asc2 nf2 = q.orderBy c2 asc2 nf2)
    ∧ (q.orderBy c1 = q.orderBy c1 true false)
    ∧ ((q.orderBy c1).query.sort
        = some { sortBy := c1.resolve, sortOrder := .asc, nullsFirst := some false }) :=
  ⟨rfl, rfl, rfl, rfl, rfl⟩

/-- C10: `setTickers` and `setIndex` both reset the URL to the global
endpoint and overwrite the document's `markets` list with the empty list
(discarding the default `['america']` or any previously set markets),
while storing the given tickers (resp. symbolset), and `setIndex`
additionally sets the `index_components_market_pages` preset. -/
theorem setTickers_setIndex_reset (q : Query) (tickers indexes : List String) :
    ((q.setTickers tickers).url = "https://scanner.tradingview.com/global/scan")
    ∧ ((q.setTickers tickers).query.markets = some [])
    ∧ ((q.setTickers tickers).query.symbols.map (fun s => s.tickers) = some (some tickers))
    ∧ ((q.setIndex indexes).url = "https://scanner.tradingview.com/global/scan")
    ∧ ((q.setIndex indexes).query.markets = some [])
    ∧ ((q.setIndex indexes).query.preset = some "index_components_market_pages")
    ∧ ((q.setIndex indexes).query.symbols.map (fun s => s.symbolset) = some (some indexes)) := by
  have hglobal : jsReplace URL "\x7bmarket\x7d" "global"
      = "https://scanner.tradingview.com/global/scan" := by
    rw [jsReplace_url]
    rfl
  exact ⟨hglobal, rfl, rfl, hglobal, rfl, rfl, rfl⟩

/-- C4: for a query whose document columns are `[c1, c2, c3]` (pairwise
distinct field names, none of them `ticker`) and a raw response row
`\x7b s, d: [v1, v2, v3] \x7d`, `getScannerData` yields the record
`\x7b ticker: s, c1: v1, c2: v2, c3: v3 \x7d`, each positional value
mapped onto the column name at the same index. -/
theorem getScannerData_roundtrip (q : Query) (t : Transport) (c1 c2 c3 s : String)
    (v1 v2 v3 : Json) (n : Int)
    (hcols : q.query.columns = some [c1, c2, c3])
    (h1 : c1 ≠ "ticker") (h2 : c2 ≠ "ticker") (h3 : c3 ≠ "ticker")
    (h12 : c1 ≠ c2) (h13 : c1 ≠ c3) (h23 : c2 ≠ c3)
    (hraw : q.getScannerDataRaw t = .ok { totalCount := n, data := some [⟨s, [v1, v2, v3]⟩] }) :
    q.getScannerData t
      = .ok { totalCount := n
              data := [[("ticker", some (Json.str s)),
                        (c1, some v1), (c2, some v2), (c3, some v3)]] } := by
  have t1 : ("ticker" == c1) = false := beq_eq_false_iff_ne.mpr (Ne.symm h1)
  have t2 : ("ticker" == c2) = false := beq_eq_false_iff_ne.mpr (Ne.symm h2)
  have t3 : ("ticker" == c3) = false := beq_eq_false_iff_ne.mpr (Ne.symm h3)
  have t12 : (c1 == c2) = false := beq_eq_false_iff_ne.mpr h12
  have t13 : (c1 == c3) = false := beq_eq_false_iff_ne.mpr h13
  have t23 : (c2 == c3) = false := beq_eq_false_iff_ne.mpr h23
  unfold Query.getScannerData
  rw [hraw]
  simp [hcols, mapRow, setKey, List.enum, List.enumFrom, t1, t2, t3, t12, t13, t23]

/-- C4 witness: the theorem applied to a concrete query and transport
response, with all hypotheses discharged on concrete data. -/
theorem getScannerData_roundtrip_witness :
    (Query.new.select [.str "open", .str "high", .str "low"]).getScannerData
        (fun _ _ => .ok { totalCount := 7
                          data := some [⟨"NASDAQ:AAPL", [Json.num 1, Json.num 2, Json.num 3]⟩] })
      = .ok { totalCount := 7
              data := [[("ticker", some (Json.str "NASDAQ:AAPL")),
                        ("open", some (Json.num 1)), ("high", some (Json.num 2)),
                        ("low", some (Json.num 3))]] } := by
  exact getScannerData_roundtrip _ _ "open" "high" "low" "NASDAQ:AAPL"
    (Json.num 1) (Json.num 2) (Json.num 3) 7 rfl
    (by decide) (by decide) (by decide) (by decide) (by decide) (by decide) rfl

/-- C5: a raw response whose `data` array is absent or empty yields the
well-formed empty result `\x7b totalCount: N, data: [] \x7d` without
throwing, for any totalCount `N`. -/
theorem getScannerData_empty_data (q : Query) (t : Transport) (n : Int)
    (d : Option (List ScreenerRowDict))
    (hd : d = none ∨ d = some [])
    (hraw : q.getScannerDataRaw t = .ok { totalCount := n, data := d }) :
    q.getScannerData t = .ok { totalCount := n, data := [] } := by
  unfold Query.getScannerData
  rw [hraw]
  rcases hd with rfl | rfl <;> rfl

/-- C5 witness: the theorem applied at a concrete query, totalCount and an
absent `data` array. -/
theorem getScannerData_empty_data_witness :
    Query.new.getScannerData (fun _ _ => .ok { totalCount := 18060, data := none })
      = .ok { totalCount := 18060, data := [] } :=
  getScannerData_empty_data Query.new _ 18060 none (.inl rfl) rfl

/-- C6: when the transport rejects with an error carrying a response
(the non-2xx case), both `getScannerDataRaw` and `getScannerData` reject
with a single error whose message contains the status code and the
serialized response body; a failure without an attached response is
re-thrown as the raw underlying error. The transport is consulted exactly
once per execution (the model threads a single transport result; no retry
exists in the source). -/
theorem transport_errors_surfaced (q : Query) (t : Transport) :
    (∀ msg status statusText body,
      t q.url q.postedDoc = .error (.errorWithResponse msg ⟨status, statusText, body⟩) →
      ∃ emsg,
        q.getScannerDataRaw t = .error (.errorPlain emsg)
        ∧ q.getScannerData t = .error (.errorPlain emsg)
        ∧ (∃ x y, emsg = x ++ toString status ++ y)
        ∧ (∃ x, emsg = x ++ jsonStringify body))
    ∧ (∀ e, e.hasResponse = false →
        t q.url q.postedDoc = .error e →
        q.getScannerDataRaw t = .error e ∧ q.getScannerData t = .error e) := by
  constructor
  · intro msg status statusText body ht
    refine ⟨"HTTP " ++ toString status ++ ": " ++ statusText ++ "\nBody: " ++ jsonStringify body,
      ?_, ?_, ⟨"HTTP ", ": " ++ statusText ++ "\nBody: " ++ jsonStringify body,
        by simp [String.append_assoc]⟩,
      ⟨"HTTP " ++ toString status ++ ": " ++ statusText ++ "\nBody: ", rfl⟩⟩
    · unfold Query.getScannerDataRaw
      rw [ht]
      rfl
    · unfold Query.getScannerData Query.getScannerDataRaw
      rw [ht]
      rfl
  · intro e he ht
    have hraw : q.getScannerDataRaw t = .error e := by
      unfold Query.getScannerDataRaw
      rw [ht]
      cases e with
      | errorWithResponse m r => simp [ThrownValue.hasResponse] at he
      | errorPlain m => rfl
      | nonError v => rfl
    refine ⟨hraw, ?_⟩
    unfold Query.getScannerData
    rw [hraw]

/-- C6 witness: the theorem applied to a concrete 404 transport failure
and to a concrete response-less network error. -/
theorem transport_errors_surfaced_witness :
    (∃ emsg,
      Query.new.getScannerDataRaw
          (fun _ _ => .error (.errorWithResponse "Request failed"
            ⟨404, "Not Found", Json.str "unknown field"⟩))
        = .error (.errorPlain emsg)
      ∧ Query.new.getScannerData
          (fun _ _ => .error (.errorWithResponse "Request failed"
            ⟨404, "Not Found", Json.str "unknown field"⟩))
        = .error (.errorPlain emsg)
      ∧ (∃ x y, emsg = x ++ toString (404 : Int) ++ y)
      ∧ (∃ x, emsg = x ++ jsonStringify (Json.str "unknown field")))
    ∧ (Query.new.getScannerDataRaw (fun _ _ => .error (.errorPlain "timeout"))
        = .error (.errorPlain "timeout")
      ∧ Query.new.getScannerData (fun _ _ => .error (.errorPlain "timeout"))
        = .error (.errorPlain "timeout")) := by
  constructor
  · exact (transport_errors_surfaced Query.new
      (fun _ _ => .error (.errorWithResponse "Request failed"
        ⟨404, "Not Found", Json.str "unknown field"⟩))).1
      "Request failed" 404 "Not Found" (Json.str "unknown field") rfl
  · exact (transport_errors_surfaced Query.new
      (fun _ _ => .error (.errorPlain "timeout"))).2
      (.errorPlain "timeout") rfl rfl

/-!
Heap model of JavaScript reference semantics, used to verify the deep-copy
independence of `Query.copy()` (which clones the document via
`JSON.parse(JSON.stringify(this.query))` and copies the immutable `url`
string by value). Arrays and objects live in heap cells addressed by
natural numbers; atoms are immediate. `JSON.stringify` corresponds to
reading a pure `Json` tree back out of the heap (`readback`), and
`JSON.parse` to allocating that tree into fresh cells (`allocJson`).
-/

/-- A JavaScript runtime value: an immediate atom or a reference to a
heap cell holding an array or object. -/
inductive HVal where
  | null
  | bool (b : Bool)
  | num (n : Int)
  | str (s : String)
  | ref (a : Nat)
deriving Repr, DecidableEq

/-- A heap cell's contents: an array of values or an object with ordered
string-keyed fields. -/
inductive HNode where
  | arr (elems : List HVal)
  | obj (fields : List (String × HVal))
deriving Repr, DecidableEq

/-- The mutable store: cell `a` is `h[a]`; allocation appends. -/
abbrev Heap := List HNode

mutual
/-- Serializes the value graph reachable from `v` into a pure `Json` tree
(the effect of `JSON.stringify`); `fuel` bounds the recursion depth and is
consumed at every step, so any acyclic document is read back with enough
fuel. -/
def readback (h : Heap) : HVal → Nat → Option Json
  | _, 0 => none
  | .null, _ + 1 => some .null
  | .bool b, _ + 1 => some (.bool b)
  | .num n, _ + 1 => some (.num n)
  | .str s, _ + 1 => some (.str s)
  | .ref a, fuel + 1 =>
    match h[a]? with
    | none => none
    | some (.arr xs) => (readbackList h xs fuel).map .arr
    | some (.obj fs) => (readbackFields h fs fuel).map .obj
termination_by _v fuel => (fuel, 0)

/-- Serializes each element of an array cell. -/
def readbackList (h : Heap) : List HVal → Nat → Option (List Json)
  | [], _ => some []
  | v :: vs, fuel =>
    match readback h v fuel, readbackList h vs fuel with
    | some j, some js => some (j :: js)
    | _, _ => none
termination_by vs fuel => (fuel, vs.length + 1)

/-- Serializes each field of an object cell. -/
def readbackFields (h : Heap) : List (String × HVal) → Nat → Option (List (String × Json))
  | [], _ => some []
  | (k, v) :: fs, fuel =>
    match readback h v fuel, readbackFields h fs fuel with
    | some j, some js => some ((k, j) :: js)
    | _, _ => none
termination_by fs fuel => (fuel, fs.length + 1)
end

mutual
/-- Allocates a pure `Json` tree into the heap as entirely fresh cells
(the effect of `JSON.parse` on serialized text), returning the extended
heap and the root value. -/
def allocJson (h : Heap) : Json → Heap × HVal
  | .null => (h, .null)
  | .bool b => (h, .bool b)
  | .num n => (h, .num n)
  | .str s => (h, .str s)
  | .arr xs =>
    let res := allocJsonList h xs
    (res.1 ++ [.arr res.2], .ref res.1.length)
  | .obj fs =>
    let res := allocJsonFields h fs
    (res.1 ++ [.obj res.2], .ref res.1.length)

/-- Allocates each element of an array literal in order. -/
def allocJsonList (h : Heap) : List Json → Heap × List HVal
  | [] => (h, [])
  | j :: js =>
    let res := allocJson h j
    let rest := allocJsonList res.1 js
    (rest.1, res.2 :: rest.2)

/-- Allocates each field value of an object literal in order. -/
def allocJsonFields (h : Heap) : List (String × Json) → Heap × List (String × HVal)
  | [] => (h, [])
  | (k, j) :: fs =>
    let res := allocJson h j
    let rest := allocJsonFields res.1 fs
    (rest.1, (k, res.2) :: rest.2)
end

mutual
/-- Depth of a `Json` tree: the fuel needed to read an allocated copy of
it back out of the heap. -/
def Json.depth : Json → Nat
  | .null => 1
  | .bool _ => 1
  | .num _ => 1
  | .str _ => 1
  | .arr xs => Json.depthList xs + 1
  | .obj fs => Json.depthFields fs + 1

/-- Maximum depth of a list of trees. -/
def Json.depthList : List Json → Nat
  | [] => 0
  | j :: js => max j.depth (Json.depthList js)

/-- Maximum depth of a list of object fields. -/
def Json.depthFields : List (String × Json) → Nat
  | [] => 0
  | (_, j) :: fs => max j.depth (Json.depthFields fs)
end

/-- Whether every reference in `v` lands in the region described by `p`. -/
def valRefsB (p : Nat → Bool) : HVal → Bool
  | .ref a => p a
  | _ => true

/-- Whether every reference stored in a heap cell lands in the region
described by `p`. -/
def nodeRefsB (p : Nat → Bool) : HNode → Bool
  | .arr xs => xs.all (valRefsB p)
  | .obj fs => fs.all (fun kv => valRefsB p kv.2)

/-- A closed heap: every cell references only cells inside the heap. -/
def heapClosedB (h : Heap) : Bool :=
  h.all (nodeRefsB (fun a => decide (a < h.length)))

/-- The builder state relevant to `Query.copy()`: the heap, the reference
to the root of the `query` document object graph, and the `url` string
(strings are immutable in JavaScript, so the URL is held by value). -/
structure BuilderH where
  heap : Heap
  root : HVal
  url : String

/-- `Query.copy()` from `types.ts` in the heap model: serialize the
document (`JSON.stringify`), reallocate it as fresh cells (`JSON.parse`),
and copy the `url` by value. Fails only when `fuel` is too small for the
document's depth. -/
def BuilderH.copy (b : BuilderH) (fuel : Nat) : Option BuilderH :=
  (readback b.heap b.root fuel).map fun j =>
    let res := allocJson b.heap j
    { heap := res.1, root := res.2, url := b.url }

/-- Weakening the region predicate preserves `valRefsB`. -/
theorem valRefsB_mono {p q : Nat → Bool} (hpq : ∀ a, p a = true → q a = true)
    (v : HVal) (hv : valRefsB p v = true) : valRefsB q v = true := by
  cases v <;> simp [valRefsB] at hv ⊢
  exact hpq _ hv

/-- Weakening the region predicate preserves `nodeRefsB`. -/
theorem nodeRefsB_mono {p q : Nat → Bool} (hpq : ∀ a, p a = true → q a = true)
    (node : HNode) (hnode : nodeRefsB p node = true) : nodeRefsB q node = true := by
  cases node with
  | arr xs =>
    simp only [nodeRefsB, List.all_eq_true] at hnode ⊢
    exact fun v hv => valRefsB_mono hpq v (hnode v hv)
  | obj fs =>
    simp only [nodeRefsB, List.all_eq_true] at hnode ⊢
    exact fun kv hkv => valRefsB_mono hpq kv.2 (hnode kv hkv)

/-- Readback is local to the region its references stay in: two heaps that
agree on a region `p` that is closed under references give the same
readback for any value whose references lie in `p`. -/
theorem readback_congr (h₁ h₂ : Heap) (p : Nat → Bool)
    (hagree : ∀ a, p a = true → h₁[a]? = h₂[a]?)
    (hclosed : ∀ a node, p a = true → h₁[a]? = some node → nodeRefsB p node = true) :
    ∀ fuel,
      (∀ v, valRefsB p v = true → readback h₁ v fuel = readback h₂ v fuel)
      ∧ (∀ xs, xs.all (valRefsB p) = true →
          readbackList h₁ xs fuel = readbackList h₂ xs fuel)
      ∧ (∀ fs, fs.all (fun kv => valRefsB p kv.2) = true →
          readbackFields h₁ fs fuel = readbackFields h₂ fs fuel) := by
  intro fuel
  induction fuel with
  | zero =>
    refine ⟨fun v _ => by simp [readback], fun xs _ => ?_, fun fs _ => ?_⟩
    · cases xs with
      | nil => simp [readbackList]
      | cons v vs => simp [readbackList, readback]
    · rcases fs with _ | ⟨⟨k, v⟩, fs⟩
      · simp [readbackFields]
      · simp [readbackFields, readback]
  | succ n ih =>
    have hval : ∀ v, valRefsB p v = true → readback h₁ v (n + 1) = readback h₂ v (n + 1) := by
      intro v hv
      cases v with
      | null => simp [readback]
      | bool b => simp [readback]
      | num m => simp [readback]
      | str s => simp [readback]
      | ref a =>
        have hpa : p a = true := by simpa [valRefsB] using hv
        have hget : h₁[a]? = h₂[a]? := hagree a hpa
        simp only [readback]
        rw [← hget]
        cases hnode : h₁[a]? with
        | none => rfl
        | some node =>
          have hrefs := hclosed a node hpa hnode
          cases node with
          | arr xs =>
            have hxs : xs.all (valRefsB p) = true := by simpa [nodeRefsB] using hrefs
            simp [ih.2.1 xs hxs]
          | obj fs =>
            have hfs : fs.all (fun kv => valRefsB p kv.2) = true := by
              simpa [nodeRefsB] using hrefs
            simp [ih.2.2 fs hfs]
    refine ⟨hval, fun xs hxs => ?_, fun fs hfs => ?_⟩
    · induction xs with
      | nil => simp [readbackList]
      | cons v vs ihl =>
        simp only [List.all_cons, Bool.and_eq_true] at hxs
        simp only [readbackList]
        rw [hval v hxs.1, ihl hxs.2]
    · induction fs with
      | nil => simp [readbackFields]
      | cons kv fs ihf =>
        obtain ⟨k, v⟩ := kv
        simp only [List.all_cons, Bool.and_eq_true] at hfs
        simp only [readbackFields]
        rw [hval v hfs.1, ihf hfs.2]

mutual
/-- Allocation only appends to the heap, and every reference it creates —
in the returned root value and in every appended cell — points into the
appended region (at or beyond the old heap length). -/
theorem allocJson_spec (j : Json) (h : Heap) :
    ∃ ext, (allocJson h j).1 = h ++ ext
      ∧ valRefsB (fun a => decide (h.length ≤ a)) (allocJson h j).2 = true
      ∧ ∀ node ∈ ext, nodeRefsB (fun a => decide (h.length ≤ a)) node = true := by
  cases j with
  | null => exact ⟨[], by simp [allocJson, valRefsB]⟩
  | bool b => exact ⟨[], by simp [allocJson, valRefsB]⟩
  | num n => exact ⟨[], by simp [allocJson, valRefsB]⟩
  | str s => exact ⟨[], by simp [allocJson, valRefsB]⟩
  | arr xs =>
    obtain ⟨ext, heq, hvals, hnodes⟩ := allocJsonList_spec xs h
    refine ⟨ext ++ [.arr (allocJsonList h xs).2], ?_, ?_, ?_⟩
    · simp [allocJson, heq]
    · simp [allocJson, valRefsB, heq]
    · intro node hnode
      rcases List.mem_append.mp hnode with hn | hn
      · exact hnodes node hn
      · simp only [List.mem_singleton] at hn
        subst hn
        simpa [nodeRefsB] using hvals
  | obj fs =>
    obtain ⟨ext, heq, hvals, hnodes⟩ := allocJsonFields_spec fs h
    refine ⟨ext ++ [.obj (allocJsonFields h fs).2], ?_, ?_, ?_⟩
    · simp [allocJson, heq]
    · simp [allocJson, valRefsB, heq]
    · intro node hnode
      rcases List.mem_append.mp hnode with hn | hn
      · exact hnodes node hn
      · simp only [List.mem_singleton] at hn
        subst hn
        simpa [nodeRefsB] using hvals

/-- `allocJson_spec` for lists of array elements. -/
theorem allocJsonList_spec (js : List Json) (h : Heap) :
    ∃ ext, (allocJsonList h js).1 = h ++ ext
      ∧ (allocJsonList h js).2.all (valRefsB (fun a => decide (h.length ≤ a))) = true
      ∧ ∀ node ∈ ext, nodeRefsB (fun a => decide (h.length ≤ a)) node = true := by
  cases js with
  | nil => exact ⟨[], by simp [allocJsonList]⟩
  | cons j js =>
    obtain ⟨ext1, heq1, hv1, hn1⟩ := allocJson_spec j h
    obtain ⟨ext2, heq2, hv2, hn2⟩ := allocJsonList_spec js (allocJson h j).1
    have hmono : ∀ a, decide ((allocJson h j).1.length ≤ a) = true
        → decide (h.length ≤ a) = true := by
      intro a ha
      simp only [decide_eq_true_eq] at ha ⊢
      have : h.length ≤ (allocJson h j).1.length := by
        rw [heq1]; simp
      omega
    refine ⟨ext1 ++ ext2, ?_, ?_, ?_⟩
    · simp only [allocJsonList]
      rw [heq2, heq1, List.append_assoc]
    · simp only [allocJsonList, List.all_cons, Bool.and_eq_true]
      refine ⟨hv1, ?_⟩
      rw [List.all_eq_true] at hv2 ⊢
      exact fun v hv => valRefsB_mono hmono v (hv2 v hv)
    · intro node hnode
      rcases List.mem_append.mp hnode with hn | hn
      · exact hn1 node hn
      · exact nodeRefsB_mono hmono node (hn2 node hn)

/-- `allocJson_spec` for lists of object fields. -/
theorem allocJsonFields_spec (fs : List (String × Json)) (h : Heap) :
    ∃ ext, (allocJsonFields h fs).1 = h ++ ext
      ∧ (allocJsonFields h fs).2.all
          (fun kv => valRefsB (fun a => decide (h.length ≤ a)) kv.2) = true
      ∧ ∀ node ∈ ext, nodeRefsB (fun a => decide (h.length ≤ a)) node = true := by
  cases fs with
  | nil => exact ⟨[], by simp [allocJsonFields]⟩
  | cons kj fs =>
    obtain ⟨k, j⟩ := kj
    obtain ⟨ext1, heq1, hv1, hn1⟩ := allocJson_spec j h
    obtain ⟨ext2, heq2, hv2, hn2⟩ := allocJsonFields_spec fs (allocJson h j).1
    have hmono : ∀ a, decide ((allocJson h j).1.length ≤ a) = true
        → decide (h.length ≤ a) = true := by
      intro a ha
      simp only [decide_eq_true_eq] at ha ⊢
      have : h.length ≤ (allocJson h j).1.length := by
        rw [heq1]; simp
      omega
    refine ⟨ext1 ++ ext2, ?_, ?_, ?_⟩
    · simp only [allocJsonFields]
      rw [heq2, heq1, List.append_assoc]
    · simp only [allocJsonFields, List.all_cons, Bool.and_eq_true]
      refine ⟨hv1, ?_⟩
      rw [List.all_eq_true] at hv2 ⊢
      exact fun kv hkv => valRefsB_mono hmono kv.2 (hv2 kv hkv)
    · intro node hnode
      rcases List.mem_append.mp hnode with hn | hn
      · exact hn1 node hn
      · exact nodeRefsB_mono hmono node (hn2 node hn)
end

mutual
/-- Reading an allocated tree back out of the heap returns the original
tree, in any further extension of the allocation's heap, with any fuel at
least the tree's depth. -/
theorem allocJson_readback (j : Json) (h ext2 : Heap) (fuel : Nat)
    (hfuel : j.depth ≤ fuel) :
    readback ((allocJson h j).1 ++ ext2) (allocJson h j).2 fuel = some j := by
  cases fuel with
  | zero =>
    exfalso
    cases j <;> simp [Json.depth] at hfuel
  | succ m =>
    cases j with
    | null => simp [allocJson, readback]
    | bool b => simp [allocJson, readback]
    | num n => simp [allocJson, readback]
    | str s => simp [allocJson, readback]
    | arr xs =>
      have hm : Json.depthList xs ≤ m := by
        have := hfuel
        simp only [Json.depth] at this
        omega
      simp only [allocJson, readback]
      have hget : ((allocJsonList h xs).1 ++ [HNode.arr (allocJsonList h xs).2] ++ ext2)[(allocJsonList h xs).1.length]?
          = some (HNode.arr (allocJsonList h xs).2) := by
        rw [List.append_assoc, List.getElem?_append_right (Nat.le_refl _)]
        simp
      rw [hget]
      have := allocJsonList_readback xs h ([HNode.arr (allocJsonList h xs).2] ++ ext2) m hm
      simp only [List.singleton_append] at this
      simp [this]
    | obj fs =>
      have hm : Json.depthFields fs ≤ m := by
        have := hfuel
        simp only [Json.depth] at this
        omega
      simp only [allocJson, readback]
      have hget : ((allocJsonFields h fs).1 ++ [HNode.obj (allocJsonFields h fs).2] ++ ext2)[(allocJsonFields h fs).1.length]?
          = some (HNode.obj (allocJsonFields h fs).2) := by
        rw [List.append_assoc, List.getElem?_append_right (Nat.le_refl _)]
        simp
      rw [hget]
      have := allocJsonFields_readback fs h ([HNode.obj (allocJsonFields h fs).2] ++ ext2) m hm
      simp only [List.singleton_append] at this
      simp [this]

/-- `allocJson_readback` for lists of array elements. -/
theorem allocJsonList_readback (js : List Json) (h ext2 : Heap) (fuel : Nat)
    (hfuel : Json.depthList js ≤ fuel) :
    readbackList ((allocJsonList h js).1 ++ ext2) (allocJsonList h js).2 fuel = some js := by
  cases js with
  | nil => simp [allocJsonList, readbackList]
  | cons j js =>
    have hj : j.depth ≤ fuel := by
      have := hfuel
      simp only [Json.depthList] at this
      omega
    have hjs : Json.depthList js ≤ fuel := by
      have := hfuel
      simp only [Json.depthList] at this
      omega
    obtain ⟨ext', heq', -, -⟩ := allocJsonList_spec js (allocJson h j).1
    simp only [allocJsonList, readbackList]
    have hhead := allocJson_readback j h (ext' ++ ext2) fuel hj
    rw [← List.append_assoc, ← heq'] at hhead
    have htail := allocJsonList_readback js (allocJson h j).1 ext2 fuel hjs
    rw [hhead, htail]

/-- `allocJson_readback` for lists of object fields. -/
theorem allocJsonFields_readback (fs : List (String × Json)) (h ext2 : Heap) (fuel : Nat)
    (hfuel : Json.depthFields fs ≤ fuel) :
    readbackFields ((allocJsonFields h fs).1 ++ ext2) (allocJsonFields h fs).2 fuel
      = some fs := by
  cases fs with
  | nil => simp [allocJsonFields, readbackFields]
  | cons kj fs =>
    obtain ⟨k, j⟩ := kj
    have hj : j.depth ≤ fuel := by
      have := hfuel
      simp only [Json.depthFields] at this
      omega
    have hfs : Json.depthFields fs ≤ fuel := by
      have := hfuel
      simp only [Json.depthFields] at this
      omega
    obtain ⟨ext', heq', -, -⟩ := allocJsonFields_spec fs (allocJson h j).1
    simp only [allocJsonFields, readbackFields]
    have hhead := allocJson_readback j h (ext' ++ ext2) fuel hj
    rw [← List.append_assoc, ← heq'] at hhead
    have htail := allocJsonFields_readback fs (allocJson h j).1 ext2 fuel hfs
    rw [hhead, htail]
end

/-- C7: `copy()` produces a deep, fully independent document. For a
builder whose closed heap denotes the document tree `j`, the copy denotes
the same tree and the same URL, occupies only freshly allocated cells, and
afterwards mutating any heap cell on the copy's side (any address at or
beyond the original heap's length — which covers every cell of the copy's
document, nested arrays and filter trees included) leaves the original
document's denotation unchanged, while mutating any cell on the original's
side leaves the copy's denotation unchanged. -/
theorem copy_deep_independence (b : BuilderH) (j : Json) (fuel fuel2 : Nat)
    (hclosed : heapClosedB b.heap = true)
    (hroot : valRefsB (fun a => decide (a < b.heap.length)) b.root = true)
    (hread : readback b.heap b.root fuel = some j)
    (hdepth : j.depth ≤ fuel2) :
    ∃ b', b.copy fuel = some b'
      ∧ b'.url = b.url
      ∧ readback b'.heap b'.root fuel2 = some j
      ∧ readback b'.heap b.root fuel = some j
      ∧ (∀ a node, b.heap.length ≤ a →
          readback (b'.heap.set a node) b.root fuel = some j)
      ∧ (∀ a node, a < b.heap.length →
          readback (b'.heap.set a node) b'.root fuel2 = some j) := by
  obtain ⟨ext, heq, hv', hnodes⟩ := allocJson_spec j b.heap
  have hlen : b.heap.length ≤ (allocJson b.heap j).1.length := by
    rw [heq]; simp
  have hclosed' : ∀ a node, decide (a < b.heap.length) = true
      → b.heap[a]? = some node
      → nodeRefsB (fun x => decide (x < b.heap.length)) node = true := by
    intro a node _ hget
    have hmem : node ∈ b.heap := List.getElem?_mem hget
    exact List.all_eq_true.mp hclosed node hmem
  have hroundtrip : readback (allocJson b.heap j).1 (allocJson b.heap j).2 fuel2 = some j := by
    have := allocJson_readback j b.heap [] fuel2 hdepth
    simpa using this
  refine ⟨{ heap := (allocJson b.heap j).1, root := (allocJson b.heap j).2, url := b.url },
    ?_, rfl, hroundtrip, ?_, ?_, ?_⟩
  · simp [BuilderH.copy, hread]
  · -- the original document still reads back unchanged in the extended heap
    have hagree : ∀ a, decide (a < b.heap.length) = true
        → b.heap[a]? = (allocJson b.heap j).1[a]? := by
      intro a ha
      simp only [decide_eq_true_eq] at ha
      rw [heq, List.getElem?_append_left ha]
    have h := (readback_congr b.heap (allocJson b.heap j).1 _ hagree hclosed' fuel).1
      b.root hroot
    rw [← h]
    exact hread
  · -- mutating any cell in the copy's region leaves the original's readback
    intro a node ha
    have hagree : ∀ x, decide (x < b.heap.length) = true
        → b.heap[x]? = ((allocJson b.heap j).1.set a node)[x]? := by
      intro x hx
      simp only [decide_eq_true_eq] at hx
      rw [List.getElem?_set_ne (by omega), heq, List.getElem?_append_left hx]
    have h := (readback_congr b.heap ((allocJson b.heap j).1.set a node) _
      hagree hclosed' fuel).1 b.root hroot
    rw [← h]
    exact hread
  · -- mutating any cell in the original's region leaves the copy's readback
    intro a node ha
    have hagree : ∀ x, decide (b.heap.length ≤ x) = true
        → (allocJson b.heap j).1[x]? = ((allocJson b.heap j).1.set a node)[x]? := by
      intro x hx
      simp only [decide_eq_true_eq] at hx
      rw [List.getElem?_set_ne (by omega)]
    have hhigh : ∀ x node', decide (b.heap.length ≤ x) = true
        → (allocJson b.heap j).1[x]? = some node'
        → nodeRefsB (fun y => decide (b.heap.length ≤ y)) node' = true := by
      intro x node' hx hget
      simp only [decide_eq_true_eq] at hx
      rw [heq, List.getElem?_append_right hx] at hget
      exact hnodes node' (List.getElem?_mem hget)
    have h := (readback_congr (allocJson b.heap j).1
      ((allocJson b.heap j).1.set a node) _ hagree hhigh fuel2).1
      (allocJson b.heap j).2 hv'
    rw [← h]
    exact hroundtrip

/-- Concrete witness heap: cell 0 is a `range` array `[0, 50]`, cell 1 a
`columns` array, cell 2 the query document object referencing both. -/
def witHeap : Heap :=
  [HNode.arr [.num 0, .num 50],
   HNode.arr [.str "name", .str "close"],
   HNode.obj [("columns", .ref 1), ("range", .ref 0)]]

/-- Concrete witness builder rooted at the document object. -/
def witBuilder : BuilderH :=
  { heap := witHeap, root := .ref 2, url := "https://scanner.tradingview.com/america/scan" }

/-- The pure tree denoted by `witBuilder`'s document. -/
def witDoc : Json :=
  .obj [("columns", .arr [.str "name", .str "close"]),
        ("range", .arr [.num 0, .num 50])]

/-- C7 witness: the theorem applied to the concrete builder `witBuilder`,
with the mutation quantifiers instantiated at concrete cells (cell 3, the
first cell of the copy's region, and cell 0, the original's range array). -/
theorem copy_deep_independence_witness :
    ∃ b', witBuilder.copy 3 = some b'
      ∧ b'.url = witBuilder.url
      ∧ readback b'.heap b'.root 3 = some witDoc
      ∧ readback b'.heap witBuilder.root 3 = some witDoc
      ∧ readback (b'.heap.set 3 (HNode.arr [])) witBuilder.root 3 = some witDoc
      ∧ readback (b'.heap.set 0 (HNode.arr [])) b'.root 3 = some witDoc := by
  obtain ⟨b', h1, h2, h3, h4, h5, h6⟩ :=
    copy_deep_independence witBuilder witDoc 3 3
      (by decide) (by decide)
      (by simp [witBuilder, witHeap, witDoc, readback, readbackList, readbackFields])
      (by simp [witDoc, Json.depth, Json.depthList, Json.depthFields])
  exact ⟨b', h1, h2, h3, h4,
    h5 3 (HNode.arr []) (by decide), h6 0 (HNode.arr []) (by decide)⟩

end TVS
